import Mathlib

/-!
# epub-builder: `readAndDecode` and the segmentation loop of `Build`

A shallow embedding of `src/builder.go`.

* `Build` (from line 136 on) is modelled over the text of the decoded input,
  a list of Unicode code points (`List Char`): a Go string that holds valid
  UTF-8.  On such a string a byte length is zero exactly when the list is
  empty, a byte suffix made of ASCII characters is a suffix of the list, and
  `utf8.RuneCountInString` is the length of the list.  The `AddSection`
  calls are recorded in order, each with the line of the call.
* `readAndDecode` is modelled over the bytes of the file (natural numbers
  below 256).  The functions it calls in `golang.org/x/net/html/charset`,
  `golang.org/x/text` and `unicode/utf8` follow the sources of those
  libraries; their lookup tables, the HTML scan for a `meta` tag and the
  decoders of other encodings are parameters (`Library`).
-/

namespace EpubBuilder

/-! ## Constants (builder.go, lines 23-35) -/

/-- The opening paragraph marker `htmlPStart`. -/
def htmlPStart : List Char := "<p class=\"content\">".toList

/-- The closing paragraph marker `htmlPEnd`. -/
def htmlPEnd : List Char := "</p>".toList

/-- The opening heading marker `htmlTitleStart`. -/
def htmlTitleStart : List Char := "<h3 class=\"title\">".toList

/-- The closing heading marker `htmlTitleEnd`. -/
def htmlTitleEnd : List Char := "</h3>".toList

/-- The title length limit `defaultMax`, in code points. -/
def defaultMax : Nat := 35

/-- The placeholder title assigned after the loop (line 179). -/
def placeholderTitle : List Char := "章节正文".toList

/-! ## Library functions used by `Build` -/

/-- Go's `unicode.IsSpace`: the code points with the White_Space property. -/
def isSpace (c : Char) : Bool :=
  let n := c.toNat
  (0x09 ≤ n && n ≤ 0x0D) || n == 0x20 || n == 0x85 || n == 0xA0 || n == 0x1680 ||
    (0x2000 ≤ n && n ≤ 0x200A) || n == 0x2028 || n == 0x2029 || n == 0x202F ||
    n == 0x205F || n == 0x3000

/-- Go's `strings.TrimSpace`: leading, then trailing, white space removed. -/
def TrimSpace (s : List Char) : List Char :=
  (s.dropWhile isSpace).rdropWhile isSpace

/-- Go's `strings.HasSuffix`. -/
def HasSuffix (s suffix : List Char) : Bool :=
  suffix.isSuffixOf s

/-- Go's `utf8.RuneCountInString`. -/
def RuneCountInString (s : List Char) : Nat :=
  s.length

/-- The regular expressions that `defaultRegStr` is built from. -/
inductive Re where
  /-- `^`, the start of the text. -/
  | bol : Re
  /-- `$`, the end of the text. -/
  | eol : Re
  /-- `.`, any character but a line feed. -/
  | any : Re
  /-- `\d`, an ASCII digit. -/
  | digit : Re
  /-- A literal character. -/
  | lit : Char → Re
  /-- Concatenation. -/
  | cat : Re → Re → Re
  /-- Alternation `a|b`. -/
  | alt : Re → Re → Re
  /-- Bounded repetition `r{lo,hi}`. -/
  | rep : Re → Nat → Nat → Re

/-- A matcher: from a position and the text left there, succeed when the
continuation accepts some position the expression can reach. -/
abbrev Matcher : Type := Nat → List Char → (Nat → List Char → Bool) → Bool

/-- Exactly `n` repetitions of a matcher. -/
def repExact (m : Matcher) : Nat → Matcher
  | 0, pos, s, k => k pos s
  | n + 1, pos, s, k => m pos s (fun p t => repExact m n p t k)

/-- At most `n` repetitions of a matcher. -/
def repUpTo (m : Matcher) : Nat → Matcher
  | 0, pos, s, k => k pos s
  | n + 1, pos, s, k => k pos s || m pos s (fun p t => repUpTo m n p t k)

/-- Backtracking match of an expression at position `pos`, where `s` is the
text from `pos` on. -/
def matchAt : Re → Matcher
  | .bol, pos, s, k => pos == 0 && k pos s
  | .eol, pos, s, k => s.isEmpty && k pos s
  | .any, pos, s, k =>
    match s with
    | [] => false
    | c :: t => c != '\n' && k (pos + 1) t
  | .digit, pos, s, k =>
    match s with
    | [] => false
    | c :: t => ('0' ≤ c && c ≤ '9') && k (pos + 1) t
  | .lit a, pos, s, k =>
    match s with
    | [] => false
    | c :: t => c == a && k (pos + 1) t
  | .cat a b, pos, s, k => matchAt a pos s (fun p t => matchAt b p t k)
  | .alt a b, pos, s, k => matchAt a pos s k || matchAt b pos s k
  | .rep r lo hi, pos, s, k =>
    repExact (matchAt r) lo pos s (fun p t => repUpTo (matchAt r) (hi - lo) p t k)

/-- Go's `Regexp.MatchString`: some substring of the text matches. -/
def MatchString (re : Re) (s : List Char) : Bool :=
  (List.range (s.length + 1)).any (fun i => matchAt re i (s.drop i) (fun _ _ => true))

/-- A literal word as an expression. -/
def Re.word : List Char → Re → Re
  | [], r => r
  | c :: cs, r => .cat (.lit c) (Re.word cs r)

/-- The expression `defaultRegStr` (line 33):
`^.{0,8}(第.{1,20}(章|节)|(S|s)ection.{1,20}|(C|c)hapter.{1,20}|(P|p)age.{1,20})`
`|^\d{1,4}.{0,20}$|^引子|^楔子|^章节目录`. -/
def defaultRegStr : Re :=
  .alt (.cat .bol (.cat (.rep .any 0 8)
    (.alt (.cat (.lit '第') (.cat (.rep .any 1 20) (.alt (.lit '章') (.lit '节'))))
    (.alt (.cat (.alt (.lit 'S') (.lit 's')) (Re.word "ection".toList (.rep .any 1 20)))
    (.alt (.cat (.alt (.lit 'C') (.lit 'c')) (Re.word "hapter".toList (.rep .any 1 20)))
      (.cat (.alt (.lit 'P') (.lit 'p')) (Re.word "age".toList (.rep .any 1 20))))))))
  (.alt (.cat .bol (.cat (.rep .digit 1 4) (.cat (.rep .any 0 20) .eol)))
  (.alt (.cat .bol (.cat (.lit '引') (.lit '子')))
  (.alt (.cat .bol (.cat (.lit '楔') (.lit '子')))
    (.cat .bol (.cat (.lit '章') (.cat (.lit '节') (.cat (.lit '目') (.lit '录'))))))))

/-! ## `AddPart` (lines 82-93) -/

/-- `AddPart`: the buffer with the line appended, verbatim when it ends in
one of the four marker pairs, wrapped in the paragraph markers otherwise. -/
def AddPart (buff content : List Char) : List Char :=
  if HasSuffix content "==".toList || HasSuffix content "**".toList ||
      HasSuffix content "--".toList || HasSuffix content "//".toList then
    buff ++ content
  else
    buff ++ htmlPStart ++ content ++ htmlPEnd

/-! ## `Build` (lines 136-182) -/

/-- The three `AddSection` calls of `Build`, by source line. -/
inductive Site where
  /-- Line 166: a title line seals the buffer. -/
  | seal : Site
  /-- Line 149: the end of the input. -/
  | eof : Site
  /-- Line 181: after the loop. -/
  | fallback : Site
  deriving DecidableEq, Repr

/-- One `AddSection(body, title, ...)` call. -/
structure Section where
  /-- The first argument, `content.String()`. -/
  body : List Char
  /-- The second argument, `title`. -/
  title : List Char
  /-- The call that emitted it. -/
  site : Site
  deriving DecidableEq, Repr

/-- The variables of the loop, with the `AddSection` calls made so far. -/
structure State where
  /-- The variable `title`. -/
  title : List Char
  /-- The buffer `content`. -/
  content : List Char
  /-- The calls of `e.AddSection`, oldest first. -/
  sections : List Section
  deriving DecidableEq, Repr

/-- The state before the loop (lines 137-138). -/
def State.init : State := ⟨[], [], []⟩

/-- The title test of line 162. -/
def isTitle (line : List Char) : Bool :=
  decide (RuneCountInString line ≤ defaultMax) && MatchString defaultRegStr line

/-- `bufio.Reader.ReadString('\n')` on the input left: the data up to and
including the first line feed with the rest of the input, or, when the
input ends first, the data read so far and no rest (`io.EOF`). -/
def ReadString : List Char → List Char × Option (List Char)
  | [] => ([], none)
  | c :: cs =>
    if c = '\n' then ([c], some cs)
    else (c :: (ReadString cs).1, (ReadString cs).2)

/-- The loop body for a line read without error (lines 156-174). -/
def step (st : State) (line : List Char) : State :=
  let line := TrimSpace line
  if line.length = 0 then st
  else if isTitle line then
    if st.content.length = 0 then st
    else
      { title := line
        content := htmlTitleStart ++ line ++ htmlTitleEnd
        sections := st.sections ++ [⟨st.content, st.title, .seal⟩] }
  else { st with content := AddPart st.content line }

/-- The `io.EOF` branch (lines 143-151), `line` being the data read. -/
def atEOF (st : State) (line : List Char) : State :=
  let content :=
    if line ≠ [] then
      if TrimSpace line ≠ [] then AddPart st.content (TrimSpace line) else st.content
    else st.content
  { title := st.title
    content := []
    sections := st.sections ++ [⟨content, st.title, .eof⟩] }

/-- The `for` loop of lines 140-175, one `ReadString` per unit of fuel. -/
def loop : Nat → List Char → State → Option State
  | 0, _, _ => none
  | fuel + 1, buf, st =>
    match ReadString buf with
    | (line, none) => some (atEOF st line)
    | (line, some rest) => loop fuel rest (step st line)

/-- The statement after the loop (lines 177-182). -/
def afterLoop (st : State) : State :=
  if st.content.length ≠ 0 then
    let title := if st.title = [] then placeholderTitle else st.title
    { title := title
      content := st.content
      sections := st.sections ++ [⟨st.content, title, .fallback⟩] }
  else st

/-- `Build` from line 136 on, over the text of the decoded input: the
`AddSection` calls it makes, in order. -/
def Build (input : List Char) : Option (List Section) :=
  (loop (input.length + 1) input State.init).map (fun st => (afterLoop st).sections)

/-! ## The line stream and the words of the specification -/

/-- The class of a trimmed line, as the branches of the loop body tell them
apart (lines 158 and 162). -/
inductive LineClass where
  /-- Nothing is left after trimming. -/
  | Blank : LineClass
  /-- The title test holds. -/
  | Title : LineClass
  /-- Any other line. -/
  | Content : LineClass
  deriving DecidableEq, Repr

/-- Classification of a trimmed line by its text: length and pattern. -/
def classify (line : List Char) : LineClass :=
  if line.length = 0 then .Blank
  else if isTitle line then .Title
  else .Content

/-- The input cut at its line feeds: the terminated lines, each with its
line feed, and the text that follows the last line feed. -/
def readAll : List Char → List (List Char) × List Char
  | [] => ([], [])
  | c :: cs =>
    if c = '\n' then ([c] :: (readAll cs).1, (readAll cs).2)
    else
      match (readAll cs).1 with
      | [] => ([], c :: (readAll cs).2)
      | l :: ls => ((c :: l) :: ls, (readAll cs).2)

/-- The newline-terminated lines of the input, in source order. -/
def lines (input : List Char) : List (List Char) :=
  (readAll input).1

/-- The unterminated final line of the input (empty when the input ends in
a line feed). -/
def lastChunk (input : List Char) : List Char :=
  (readAll input).2

/-- The trimmed texts of the Title lines met after the first Content line,
among the given lines. -/
def titlesAfterContent (ls : List (List Char)) : List (List Char) :=
  ((ls.map TrimSpace).dropWhile (fun l => classify l != .Content)).filter
    (fun l => classify l == .Title)

/-- The heading fragment of a title line (lines 169-171). -/
def heading (title : List Char) : List Char :=
  htmlTitleStart ++ title ++ htmlTitleEnd

/-- One rendered fragment per retained line, over trimmed lines in source
order; `empty` says that no line has been retained so far, which is when the
buffer is empty.  Blank lines and Title lines met while the buffer is empty
are not retained, a retained Title line is a heading, any other retained
line is rendered by the rule of `AddPart`. -/
def fragments : Bool → List (List Char) → List (List Char)
  | _, [] => []
  | empty, l :: ls =>
    match classify l with
    | .Blank => fragments empty ls
    | .Title => if empty then fragments empty ls else heading l :: fragments false ls
    | .Content => AddPart [] l :: fragments false ls

/-- The lines with every Title line that comes before the first Content
line deleted. -/
def deleteLeadingTitles : List (List Char) → List (List Char)
  | [] => []
  | l :: ls =>
    match classify (TrimSpace l) with
    | .Content => l :: ls
    | .Title => deleteLeadingTitles ls
    | .Blank => l :: deleteLeadingTitles ls

/-- A terminated line: text with no line feed, then one line feed. -/
def IsLine (l : List Char) : Prop :=
  ∃ t : List Char, l = t ++ ['\n'] ∧ '\n' ∉ t

/-- The sections' bodies, one after the other. -/
def bodies (secs : List Section) : List Char :=
  (secs.map (·.body)).flatten

/-- Every line of the input, trimmed: the terminated lines, then the
unterminated final line. -/
def trimmedLines (input : List Char) : List (List Char) :=
  (lines input ++ [lastChunk input]).map TrimSpace

/-! ## `readAndDecode` (lines 51-80) -/

/-- The parts of `golang.org/x/net/html/charset` and `golang.org/x/text`
that the model leaves open: the lookup tables and the decoders that
`readAndDecode` reaches only through an encoding name. -/
structure Library where
  /-- The encoding name the HTML scan of `prescan` reads from a `meta` tag,
  for content that holds a `<`. -/
  metaScan : List Nat → Option String
  /-- The bytes `transform.Bytes` returns with the decoder of a named encoding. -/
  decoder : String → List Nat → List Nat
  /-- The two-byte table `decode` of `simplifiedchinese`, by index; 0 where
  the table has no entry. -/
  gbkTable : Nat → Nat
  /-- The rune of a four-byte GB18030 sequence, by linear index below 39420. -/
  gb18030Table : Nat → Nat

/-- Go's `utf8.EncodeRune`, as bytes. -/
def EncodeRune (r : Nat) : List Nat :=
  if r < 0x80 then [r]
  else if r < 0x800 then [0xC0 + r / 64, 0x80 + r % 64]
  else if 0x10FFFF < r ∨ (0xD800 ≤ r ∧ r ≤ 0xDFFF) then [0xEF, 0xBF, 0xBD]
  else if r < 0x10000 then [0xE0 + r / 4096, 0x80 + r / 64 % 64, 0x80 + r % 64]
  else [0xF0 + r / 262144, 0x80 + r / 4096 % 64, 0x80 + r / 64 % 64, 0x80 + r % 64]

/-- `utf8.RuneError`, U+FFFD. -/
def RuneError : Nat := 0xFFFD

/-- The rune of a two-byte sequence of the GB18030 decoder, the second byte
already reduced. -/
def twoByteRune (lib : Library) (c0 c1 : Nat) : Nat :=
  if lib.gbkTable ((c0 - 0x81) * 190 + c1) = 0 then RuneError
  else lib.gbkTable ((c0 - 0x81) * 190 + c1)

/-- The rune of a four-byte sequence of the GB18030 decoder and the bytes
it takes. -/
def fourByteRune (lib : Library) (c0 c1 c2 c3 : Nat) : Nat × Nat :=
  let r := (((c0 - 0x81) * 10 + (c1 - 0x30)) * 126 + (c2 - 0x81)) * 10 + (c3 - 0x30)
  if r < 39420 then (lib.gb18030Table r, 4)
  else if 189000 ≤ r ∧ r - 189000 < 0x100000 then (r - 189000 + 0x10000, 4)
  else (RuneError, 1)

/-- One turn of the loop of `gbkDecoder.Transform` (GB18030, at the end of
the input) at the byte `c0` followed by `rest`: the rune and the number of
bytes taken, `r, size`.  A byte below 0x80 is itself, 0x80 is the euro sign,
a lead byte takes a second byte or three more, and any other sequence is
`RuneError` with one byte taken. -/
def gbkStep (lib : Library) (c0 : Nat) (rest : List Nat) : Nat × Nat :=
  if c0 < 0x80 then (c0, 1)
  else if c0 = 0x80 then (0x20AC, 1)
  else if c0 < 0xFF then
    match rest with
    | [] => (RuneError, 1)
    | c1 :: rest1 =>
      if 0x40 ≤ c1 ∧ c1 < 0x7F then (twoByteRune lib c0 (c1 - 0x40), 2)
      else if 0x80 ≤ c1 ∧ c1 < 0xFF then (twoByteRune lib c0 (c1 - 0x41), 2)
      else if 0x30 ≤ c1 ∧ c1 < 0x40 then
        match rest1 with
        | c2 :: c3 :: _ =>
          if c2 < 0x81 ∨ 0xFF ≤ c2 then (RuneError, 1)
          else if c3 < 0x30 ∨ 0x3A ≤ c3 then (RuneError, 1)
          else fourByteRune lib c0 c1 c2 c3
        | _ => (RuneError, 1)
      else (RuneError, 1)
  else (RuneError, 1)

/-- The loop of `gbkDecoder.Transform`, one turn per unit of fuel, each
rune written in UTF-8. -/
def gbkLoop (lib : Library) : Nat → List Nat → Option (List Nat)
  | _, [] => some []
  | 0, _ :: _ => none
  | fuel + 1, c0 :: rest =>
    (gbkLoop lib fuel (rest.drop ((gbkStep lib c0 rest).2 - 1))).map
      (fun out => EncodeRune (gbkStep lib c0 rest).1 ++ out)

/-- `transform.Bytes` with the decoder `simplifiedchinese.GB18030`. -/
def gb18030Decode (lib : Library) (src : List Nat) : Option (List Nat) :=
  gbkLoop lib src.length src

/-- A UTF-8 continuation byte. -/
def isCont (c : Nat) : Bool :=
  0x80 ≤ c && c ≤ 0xBF

/-- Go's `utf8.RuneStart`. -/
def RuneStart (b : Nat) : Bool :=
  !isCont b

/-- The size that the table `first` of `unicode/utf8` gives a first byte:
1 for ASCII, 0 for a byte that starts no encoding. -/
def runeSize (b : Nat) : Nat :=
  if b < 0x80 then 1
  else if 0xC2 ≤ b ∧ b ≤ 0xDF then 2
  else if 0xE0 ≤ b ∧ b ≤ 0xEF then 3
  else if 0xF0 ≤ b ∧ b ≤ 0xF4 then 4
  else 0

/-- The range `acceptRanges` gives the second byte after the first byte `b`. -/
def accept (b c : Nat) : Bool :=
  (if b = 0xE0 then 0xA0 else if b = 0xF0 then 0x90 else 0x80) ≤ c &&
    c ≤ (if b = 0xED then 0x9F else if b = 0xF4 then 0x8F else 0xBF)

/-- Go's `utf8.Valid`. -/
def Valid : List Nat → Bool
  | [] => true
  | b0 :: rest =>
    match runeSize b0, rest with
    | 1, r => Valid r
    | 2, c1 :: r => accept b0 c1 && Valid r
    | 3, c1 :: c2 :: r => accept b0 c1 && isCont c2 && Valid r
    | 4, c1 :: c2 :: c3 :: r => accept b0 c1 && isCont c2 && isCont c3 && Valid r
    | _, _ => false

/-- The scan for a rune start among the last bytes, on the reversed
content: what is left before the rune start found, if one is. -/
def cutAtRuneStart : Nat → List Nat → Option (List Nat)
  | 0, _ => none
  | _ + 1, [] => none
  | k + 1, b :: r =>
    if b < 0x80 then none
    else if RuneStart b then some r
    else cutAtRuneStart k r

/-- The step of `DetermineEncoding` that eliminates a partial rune at the
end: the content is cut at a rune start found among its last three bytes. -/
def dropPartialRune (content : List Nat) : List Nat :=
  match cutAtRuneStart 3 content.reverse with
  | some r => r.reverse
  | none => content

/-- `prescan` of `charset`: content without a `<` holds no tag, so that the
scan names no encoding. -/
def prescan (lib : Library) (content : List Nat) : Option String :=
  if 0x3C ∈ content then lib.metaScan content else none

/-- `charset.DetermineEncoding(content, "text/plain")`: the name of the
encoding. -/
def DetermineEncoding (lib : Library) (content : List Nat) : String :=
  let content := content.take 1024
  if [0xFE, 0xFF] <+: content then "utf-16be"
  else if [0xFF, 0xFE] <+: content then "utf-16le"
  else if [0xEF, 0xBB, 0xBF] <+: content then "utf-8"
  else
    match prescan lib content with
    | some name => name
    | none =>
      if (dropPartialRune content).any (fun c => 0x80 ≤ c) &&
          Valid (dropPartialRune content) then "utf-8"
      else "windows-1252"

/-- `readAndDecode` on a file that opens and reads without error: the
bytes the returned reader yields. -/
def readAndDecode (lib : Library) (file : List Nat) : Option (List Nat) :=
  let bs := file.take 1024
  let encodename := DetermineEncoding lib bs
  if encodename ≠ "utf-8" then
    if encodename = "windows-1252" then gb18030Decode lib file
    else some (lib.decoder encodename file)
  else some file

/-- A library whose scan finds nothing and whose tables are empty. -/
def Library.blank : Library :=
  ⟨fun _ => none, fun _ src => src, fun _ => 0, fun _ => 0⟩

/-- A kibibyte of the letter `a`, then U+4E2D in UTF-8. -/
def asciiThenHan : List Nat :=
  List.replicate 1024 0x61 ++ [0xE4, 0xB8, 0xAD]

/-! ## The reader -/

theorem readString_eof (buf : List Char) (h : (ReadString buf).2 = none) :
    (ReadString buf).1 = buf ∧ readAll buf = ([], buf) := by
  induction buf with
  | nil => simp [ReadString, readAll]
  | cons c cs ih =>
    by_cases hc : c = '\n'
    · simp [ReadString, hc] at h
    · simp only [ReadString, hc, if_false] at h ⊢
      obtain ⟨h1, h2⟩ := ih h
      simp [readAll, hc, h1, h2]

theorem readString_line (buf rest : List Char) (h : (ReadString buf).2 = some rest) :
    readAll buf = ((ReadString buf).1 :: (readAll rest).1, (readAll rest).2) := by
  induction buf with
  | nil => simp [ReadString] at h
  | cons c cs ih =>
    by_cases hc : c = '\n'
    · simp only [ReadString, hc, if_true, Option.some.injEq] at h ⊢
      subst h
      simp [readAll]
    · simp only [ReadString, hc, if_false] at h ⊢
      have := ih h
      simp [readAll, hc, this]

theorem lines_length_le (buf : List Char) : (lines buf).length ≤ buf.length := by
  induction buf with
  | nil => simp [lines, readAll]
  | cons c cs ih =>
    unfold lines at ih ⊢
    by_cases hc : c = '\n'
    · simp [readAll, hc]; omega
    · simp only [readAll, hc, if_false]
      cases hl : (readAll cs).1 with
      | nil => simp
      | cons l ls => rw [hl] at ih; simp at ih ⊢; omega

/-- With more fuel than the input has terminated lines, the loop ends in the
`io.EOF` branch after the loop body has run on each terminated line. -/
theorem loop_eq (fuel : Nat) (buf : List Char) (st : State)
    (h : (lines buf).length < fuel) :
    loop fuel buf st = some (atEOF ((lines buf).foldl step st) (lastChunk buf)) := by
  induction fuel generalizing buf st with
  | zero => omega
  | succ n ih =>
    unfold loop
    cases hr : (ReadString buf).2 with
    | none =>
      obtain ⟨h1, h2⟩ := readString_eof buf hr
      have : ReadString buf = (buf, none) := Prod.ext h1 hr
      rw [this]
      simp [lines, lastChunk, h2]
    | some rest =>
      have h2 := readString_line buf rest hr
      have : ReadString buf = ((ReadString buf).1, some rest) := Prod.ext rfl hr
      rw [this]
      simp only
      have hlen : (lines rest).length < n := by
        unfold lines at h ⊢
        rw [h2] at h
        simp at h
        omega
      rw [ih rest _ hlen]
      simp [lines, lastChunk, h2]

/-! ## `Build` as a fold over the line stream -/

theorem afterLoop_atEOF (st : State) (line : List Char) :
    afterLoop (atEOF st line) = atEOF st line := by
  simp [afterLoop, atEOF]

/-- The content handed to the `AddSection` call of the `io.EOF` branch. -/
theorem atEOF_sections (st : State) (line : List Char) :
    (atEOF st line).sections = st.sections ++
      [⟨if TrimSpace line ≠ [] then AddPart st.content (TrimSpace line) else st.content,
        st.title, .eof⟩] := by
  by_cases h : line = []
  · subst h
    simp [atEOF, TrimSpace, List.rdropWhile]
  · simp [atEOF, h]

/-- `Build` always returns: its calls are those of the loop body run over
the terminated lines, then the one of the `io.EOF` branch. -/
theorem Build_eq (input : List Char) :
    Build input =
      some (atEOF ((lines input).foldl step State.init) (lastChunk input)).sections := by
  unfold Build
  rw [loop_eq _ _ _ (Nat.lt_succ_of_le (lines_length_le input))]
  simp [afterLoop_atEOF]

/-! ## `AddPart` -/

theorem AddPart_append (buff content : List Char) :
    AddPart buff content = buff ++ AddPart [] content := by
  unfold AddPart
  split <;> simp

theorem htmlPStart_ne_nil : htmlPStart ≠ [] := by decide

theorem AddPart_nil_ne_nil (content : List Char) (h : content ≠ []) :
    AddPart [] content ≠ [] := by
  unfold AddPart
  split
  · simpa using h
  · intro hc
    have := congrArg List.length hc
    simp [htmlPStart] at this

theorem AddPart_ne_nil (buff content : List Char) (h : content ≠ []) :
    AddPart buff content ≠ [] := by
  rw [AddPart_append]
  intro hc
  exact AddPart_nil_ne_nil content h (List.append_eq_nil.mp hc).2

/-! ## The loop body, by class of line -/

theorem classify_blank_iff (l : List Char) : classify l = .Blank ↔ l = [] := by
  unfold classify
  constructor
  · intro h
    split at h
    · exact List.length_eq_zero.mp ‹_›
    · split at h <;> cases h
  · intro h
    simp [h]

theorem step_blank (st : State) (line : List Char)
    (h : classify (TrimSpace line) = .Blank) : step st line = st := by
  have := (classify_blank_iff _).mp h
  simp [step, this]

theorem classify_title_iff (l : List Char) :
    classify l = .Title ↔ l ≠ [] ∧ isTitle l = true := by
  unfold classify
  constructor
  · intro h
    split at h
    · cases h
    · rename_i h0
      split at h
      · exact ⟨fun hn => h0 (by simp [hn]), ‹_›⟩
      · cases h
  · rintro ⟨h1, h2⟩
    have : l.length ≠ 0 := fun hn => h1 (List.length_eq_zero.mp hn)
    simp [this, h2]

theorem classify_content_iff (l : List Char) :
    classify l = .Content ↔ l ≠ [] ∧ isTitle l = false := by
  unfold classify
  constructor
  · intro h
    split at h
    · cases h
    · rename_i h0
      split at h
      · cases h
      · exact ⟨fun hn => h0 (by simp [hn]), by simpa using ‹¬ isTitle l = true›⟩
  · rintro ⟨h1, h2⟩
    have : l.length ≠ 0 := fun hn => h1 (List.length_eq_zero.mp hn)
    simp [this, h2]

theorem step_title_empty (st : State) (line : List Char)
    (h : classify (TrimSpace line) = .Title) (hc : st.content = []) :
    step st line = st := by
  obtain ⟨h1, h2⟩ := (classify_title_iff _).mp h
  have : (TrimSpace line).length ≠ 0 := fun hn => h1 (List.length_eq_zero.mp hn)
  simp [step, this, h2, hc]

theorem step_title_seal (st : State) (line : List Char)
    (h : classify (TrimSpace line) = .Title) (hc : st.content ≠ []) :
    step st line =
      { title := TrimSpace line
        content := heading (TrimSpace line)
        sections := st.sections ++ [⟨st.content, st.title, .seal⟩] } := by
  obtain ⟨h1, h2⟩ := (classify_title_iff _).mp h
  have : (TrimSpace line).length ≠ 0 := fun hn => h1 (List.length_eq_zero.mp hn)
  simp [step, this, h2, hc, heading]

theorem step_content (st : State) (line : List Char)
    (h : classify (TrimSpace line) = .Content) :
    step st line = { st with content := AddPart st.content (TrimSpace line) } := by
  obtain ⟨h1, h2⟩ := (classify_content_iff _).mp h
  have : (TrimSpace line).length ≠ 0 := fun hn => h1 (List.length_eq_zero.mp hn)
  simp [step, this, h2]

theorem heading_ne_nil (t : List Char) : heading t ≠ [] := by
  intro hc
  have := congrArg List.length hc
  simp [heading, htmlTitleStart] at this

/-! ## Titles and call sites along the loop -/

/-- Once the buffer holds something, every Title line seals a section and
becomes the current title, and the buffer never empties again. -/
theorem titles_fold_nonempty (ls : List (List Char)) (st : State) (hc : st.content ≠ []) :
    ((ls.foldl step st).sections.map (·.title) ++ [(ls.foldl step st).title] =
      st.sections.map (·.title) ++ [st.title] ++
        (ls.map TrimSpace).filter (fun l => classify l == .Title)) ∧
    (ls.foldl step st).content ≠ [] := by
  induction ls generalizing st with
  | nil => simp [hc]
  | cons l ls ih =>
    simp only [List.foldl_cons, List.map_cons]
    cases h : classify (TrimSpace l) with
    | Blank =>
      rw [step_blank st l h]
      simpa [List.filter_cons, h] using ih st hc
    | Title =>
      rw [step_title_seal st l h hc]
      have := ih { title := TrimSpace l, content := heading (TrimSpace l),
                   sections := st.sections ++ [⟨st.content, st.title, .seal⟩] }
        (heading_ne_nil _)
      simpa [List.filter_cons, h] using this
    | Content =>
      rw [step_content st l h]
      have hne : (TrimSpace l) ≠ [] := ((classify_content_iff _).mp h).1
      have := ih { st with content := AddPart st.content (TrimSpace l) }
        (AddPart_ne_nil _ _ hne)
      simpa [List.filter_cons, h] using this

/-- From an empty buffer, the titles set along the loop are the Title lines
met after the first Content line. -/
theorem titles_fold (ls : List (List Char)) (st : State) (hc : st.content = []) :
    (ls.foldl step st).sections.map (·.title) ++ [(ls.foldl step st).title] =
      st.sections.map (·.title) ++ [st.title] ++ titlesAfterContent ls := by
  induction ls generalizing st with
  | nil => simp [titlesAfterContent]
  | cons l ls ih =>
    simp only [List.foldl_cons]
    cases h : classify (TrimSpace l) with
    | Blank =>
      rw [step_blank st l h, ih st hc]
      simp [titlesAfterContent, List.dropWhile_cons, h]
    | Title =>
      rw [step_title_empty st l h hc, ih st hc]
      simp [titlesAfterContent, List.dropWhile_cons, h]
    | Content =>
      rw [step_content st l h]
      have hne : (TrimSpace l) ≠ [] := ((classify_content_iff _).mp h).1
      have := (titles_fold_nonempty ls { st with content := AddPart st.content (TrimSpace l) }
        (AddPart_ne_nil _ _ hne)).1
      simpa [titlesAfterContent, List.dropWhile_cons, List.filter_cons, h] using this

/-- The loop body only ever adds calls of line 166. -/
theorem sites_fold (ls : List (List Char)) (st : State)
    (hs : ∀ s ∈ st.sections, s.site = .seal) :
    ∀ s ∈ (ls.foldl step st).sections, s.site = .seal := by
  induction ls generalizing st with
  | nil => simpa using hs
  | cons l ls ih =>
    simp only [List.foldl_cons]
    apply ih
    cases h : classify (TrimSpace l) with
    | Blank => rw [step_blank st l h]; exact hs
    | Title =>
      by_cases hc : st.content = []
      · rw [step_title_empty st l h hc]; exact hs
      · rw [step_title_seal st l h hc]
        intro s hmem
        simp only [List.mem_append, List.mem_singleton] at hmem
        rcases hmem with hmem | rfl
        · exact hs s hmem
        · rfl
    | Content => rw [step_content st l h]; exact hs

/-! ## Bodies along the loop -/

/-- What has been emitted, followed by what the buffer holds, grows by one
fragment per retained line; the final line is taken not to be a Title. -/
theorem bodies_fold (ls : List (List Char)) (last : List Char) (st : State)
    (hl : classify (TrimSpace last) ≠ .Title) :
    ((atEOF (ls.foldl step st) last).sections.map (·.body)).flatten =
      (st.sections.map (·.body)).flatten ++ st.content ++
        (fragments (decide (st.content = [])) ((ls ++ [last]).map TrimSpace)).flatten := by
  induction ls generalizing st with
  | nil =>
    rw [List.foldl_nil, atEOF_sections]
    cases h : classify (TrimSpace last) with
    | Blank =>
      have hb := (classify_blank_iff _).mp h
      have h0 : classify [] = LineClass.Blank := (classify_blank_iff _).mpr rfl
      simp [hb, fragments, h0]
    | Title => exact absurd h hl
    | Content =>
      have hne : TrimSpace last ≠ [] := ((classify_content_iff _).mp h).1
      simp [hne, fragments, h, AddPart_append st.content]
  | cons l ls ih =>
    simp only [List.foldl_cons, List.cons_append, List.map_cons]
    rw [ih]
    cases h : classify (TrimSpace l) with
    | Blank =>
      rw [step_blank st l h]
      simp [fragments, h]
    | Title =>
      by_cases hc : st.content = []
      · rw [step_title_empty st l h hc]
        simp [fragments, h, hc]
      · rw [step_title_seal st l h hc]
        simp [fragments, h, hc, heading_ne_nil]
    | Content =>
      rw [step_content st l h]
      have hne : (TrimSpace l) ≠ [] := ((classify_content_iff _).mp h).1
      have h2 := AddPart_ne_nil st.content _ hne
      have h3 := AddPart_nil_ne_nil _ hne
      simp [fragments, h, h2, h3, AddPart_append st.content]

/-- The first call made from a state on: it carries the title the state
holds, and its body starts with what the buffer holds. -/
theorem head_fold (ls : List (List Char)) (last : List Char) (st : State) :
    ∃ body site rest,
      (atEOF (ls.foldl step st) last).sections =
        st.sections ++ ⟨body, st.title, site⟩ :: rest ∧ st.content <+: body := by
  induction ls generalizing st with
  | nil =>
    rw [List.foldl_nil, atEOF_sections]
    refine ⟨_, _, [], rfl, ?_⟩
    split
    · rw [AddPart_append]
      exact List.prefix_append _ _
    · exact List.prefix_refl _
  | cons l ls ih =>
    simp only [List.foldl_cons]
    cases h : classify (TrimSpace l) with
    | Blank =>
      rw [step_blank st l h]
      exact ih st
    | Title =>
      by_cases hc : st.content = []
      · rw [step_title_empty st l h hc]
        exact ih st
      · rw [step_title_seal st l h hc]
        obtain ⟨body, site, rest, heq, _⟩ := ih
          { title := TrimSpace l, content := heading (TrimSpace l),
            sections := st.sections ++ [⟨st.content, st.title, .seal⟩] }
        refine ⟨st.content, .seal, ⟨body, TrimSpace l, site⟩ :: rest, ?_, List.prefix_refl _⟩
        rw [heq]
        simp
    | Content =>
      rw [step_content st l h]
      obtain ⟨body, site, rest, heq, hpre⟩ := ih
        { st with content := AddPart st.content (TrimSpace l) }
      refine ⟨body, site, rest, heq, ?_⟩
      refine List.IsPrefix.trans ?_ hpre
      rw [AddPart_append]
      exact List.prefix_append _ _

/-! ## Deleting leading Title lines -/

theorem fold_deleteLeadingTitles (ls : List (List Char)) (st : State)
    (hc : st.content = []) :
    (deleteLeadingTitles ls).foldl step st = ls.foldl step st := by
  induction ls generalizing st with
  | nil => rfl
  | cons l ls ih =>
    unfold deleteLeadingTitles
    cases h : classify (TrimSpace l) with
    | Blank =>
      simp only [List.foldl_cons]
      rw [step_blank st l h]
      exact ih st hc
    | Title =>
      simp only [List.foldl_cons]
      rw [step_title_empty st l h hc]
      exact ih st hc
    | Content => rfl

theorem deleteLeadingTitles_subset (ls : List (List Char)) :
    ∀ l ∈ deleteLeadingTitles ls, l ∈ ls := by
  induction ls with
  | nil => simp [deleteLeadingTitles]
  | cons l ls ih =>
    intro x hx
    unfold deleteLeadingTitles at hx
    cases h : classify (TrimSpace l) with
    | Blank =>
      rw [h] at hx
      simp only [List.mem_cons] at hx ⊢
      rcases hx with rfl | hx
      · exact Or.inl rfl
      · exact Or.inr (ih x hx)
    | Title =>
      rw [h] at hx
      exact List.mem_cons_of_mem _ (ih x hx)
    | Content =>
      rw [h] at hx
      exact hx

theorem readAll_no_newline (last : List Char) (h : '\n' ∉ last) :
    readAll last = ([], last) := by
  induction last with
  | nil => rfl
  | cons c cs ih =>
    simp only [List.mem_cons, not_or] at h
    have hc : c ≠ '\n' := fun e => h.1 e.symm
    simp [readAll, hc, ih h.2]

theorem readAll_line_append (l rest : List Char) (h : IsLine l) :
    readAll (l ++ rest) = (l :: (readAll rest).1, (readAll rest).2) := by
  obtain ⟨t, rfl, ht⟩ := h
  induction t with
  | nil => simp [readAll]
  | cons c cs ih =>
    simp only [List.mem_cons, not_or] at ht
    have hc : c ≠ '\n' := fun e => ht.1 e.symm
    have := ih ht.2
    simp only [List.cons_append, List.append_assoc, List.singleton_append,
      List.nil_append] at this ⊢
    simp [readAll, hc, this]

theorem readAll_flatten (ls : List (List Char)) (last : List Char)
    (hls : ∀ l ∈ ls, IsLine l) (hlast : '\n' ∉ last) :
    readAll (ls.flatten ++ last) = (ls, last) := by
  induction ls with
  | nil => simpa using readAll_no_newline last hlast
  | cons l ls ih =>
    have h1 := hls l (List.mem_cons_self _ _)
    have h2 := ih (fun x hx => hls x (List.mem_cons_of_mem _ hx))
    simp only [List.flatten_cons, List.append_assoc]
    rw [readAll_line_append l _ h1, h2]

theorem readAll_wf (buf : List Char) :
    (∀ l ∈ (readAll buf).1, IsLine l) ∧ '\n' ∉ (readAll buf).2 ∧
      (readAll buf).1.flatten ++ (readAll buf).2 = buf := by
  induction buf with
  | nil => simp [readAll]
  | cons c cs ih =>
    obtain ⟨h1, h2, h3⟩ := ih
    by_cases hc : c = '\n'
    · subst hc
      simp only [readAll, if_true]
      refine ⟨?_, h2, by simpa using h3⟩
      intro l hl
      simp only [List.mem_cons] at hl
      rcases hl with rfl | hl
      · exact ⟨[], rfl, by simp⟩
      · exact h1 l hl
    · simp only [readAll, hc, if_false]
      cases hr : (readAll cs).1 with
      | nil =>
        rw [hr] at h3
        simp only [List.flatten_nil, List.nil_append] at h3
        refine ⟨by simp, ?_, by simp [h3]⟩
        simp only [List.mem_cons, not_or]
        exact ⟨fun e => hc e.symm, h2⟩
      | cons l ls =>
        rw [hr] at h1 h3
        refine ⟨?_, h2, by simpa using h3⟩
        intro x hx
        simp only [List.mem_cons] at hx
        rcases hx with rfl | hx
        · obtain ⟨t, rfl, ht⟩ := h1 l (List.mem_cons_self _ _)
          refine ⟨c :: t, rfl, ?_⟩
          simp only [List.mem_cons, not_or]
          exact ⟨fun e => hc e.symm, ht⟩
        · exact h1 x (List.mem_cons_of_mem _ hx)

/-! ## Consequences for `Build` -/

theorem Build_titles (input : List Char) :
    (Build input).map (fun secs => secs.map (·.title)) =
      some ([] :: titlesAfterContent (lines input)) := by
  rw [Build_eq, Option.map_some', atEOF_sections, List.map_append]
  have := titles_fold (lines input) State.init rfl
  simp only [List.map_cons, List.map_nil]
  rw [this]
  simp [State.init]

theorem titlesAfterContent_title (ls : List (List Char)) :
    ∀ t ∈ titlesAfterContent ls, classify t = .Title := by
  intro t ht
  unfold titlesAfterContent at ht
  have := (List.mem_filter.mp ht).2
  simpa using this

theorem Build_shape (input : List Char) :
    ∃ sealed final, Build input = some (sealed ++ [final]) ∧
      (∀ s ∈ sealed, s.site = .seal) ∧ final.site = .eof ∧
      sealed.length = (titlesAfterContent (lines input)).length := by
  refine ⟨((lines input).foldl step State.init).sections,
    ⟨if TrimSpace (lastChunk input) ≠ [] then
        AddPart ((lines input).foldl step State.init).content (TrimSpace (lastChunk input))
      else ((lines input).foldl step State.init).content,
      ((lines input).foldl step State.init).title, .eof⟩, ?_, ?_, rfl, ?_⟩
  · rw [Build_eq, atEOF_sections]
  · exact sites_fold _ _ (by simp [State.init])
  · have := congrArg List.length (titles_fold (lines input) State.init rfl)
    simp [State.init] at this
    exact this

theorem loop_exit (input : List Char) :
    ∃ st, loop (input.length + 1) input State.init = some st ∧ st.content = [] ∧
      afterLoop st = st := by
  refine ⟨_, loop_eq _ _ _ (Nat.lt_succ_of_le (lines_length_le input)), rfl, ?_⟩
  exact afterLoop_atEOF _ _

/-- Deleting the terminated Title lines that come before the first
terminated Content line leaves the calls of `Build` unchanged. -/
theorem Build_delete (input : List Char) :
    (lines input).flatten ++ lastChunk input = input ∧
      Build ((deleteLeadingTitles (lines input)).flatten ++ lastChunk input) = Build input := by
  obtain ⟨h1, h2, h3⟩ := readAll_wf input
  refine ⟨h3, ?_⟩
  have hr := readAll_flatten (deleteLeadingTitles (lines input)) (lastChunk input)
    (fun l hl => h1 l (deleteLeadingTitles_subset _ l hl)) h2
  rw [Build_eq, Build_eq]
  simp only [lines, lastChunk] at hr ⊢
  rw [hr]
  simp only
  rw [fold_deleteLeadingTitles _ _ rfl]

theorem step_long (st : State) (line : List Char)
    (h : defaultMax < RuneCountInString (TrimSpace line)) :
    isTitle (TrimSpace line) = false ∧
      step st line = { st with content := AddPart st.content (TrimSpace line) } ∧
      (atEOF st line).sections =
        st.sections ++ [⟨AddPart st.content (TrimSpace line), st.title, .eof⟩] := by
  have h1 : isTitle (TrimSpace line) = false := by
    unfold isTitle
    simp [Nat.not_le.mpr h]
  have h2 : TrimSpace line ≠ [] := by
    intro hn
    rw [hn] at h
    simp [RuneCountInString] at h
  refine ⟨h1, step_content st line ((classify_content_iff _).mpr ⟨h2, h1⟩), ?_⟩
  rw [atEOF_sections]
  simp [h2]

theorem Build_titles_short (input : List Char) :
    ∃ secs, Build input = some secs ∧
      ∀ s ∈ secs, RuneCountInString s.title ≤ defaultMax := by
  have ht := Build_titles input
  rw [Build_eq] at ht ⊢
  refine ⟨_, rfl, ?_⟩
  simp only [Option.map_some', Option.some.injEq] at ht
  intro s hs
  have : s.title ∈ ([] : List Char) :: titlesAfterContent (lines input) := by
    rw [← ht]
    exact List.mem_map_of_mem _ hs
  simp only [List.mem_cons] at this
  rcases this with h | h
  · rw [h]; simp [RuneCountInString]
  · have := ((classify_title_iff _).mp (titlesAfterContent_title _ _ h)).2
    unfold isTitle at this
    simp only [Bool.and_eq_true, decide_eq_true_eq] at this
    exact this.1

/-- When the final line is terminated or, once trimmed, is not
Title-classified, the bodies `Build` emits, one after the other, are the
fragments of the retained lines in source order. -/
theorem Build_bodies (input : List Char)
    (h : classify (TrimSpace (lastChunk input)) ≠ .Title) :
    (Build input).map bodies = some (fragments true (trimmedLines input)).flatten := by
  rw [Build_eq, Option.map_some']
  have := bodies_fold (lines input) (lastChunk input) State.init h
  simp only [State.init, List.map_nil, List.flatten_nil, List.nil_append, decide_True] at this
  simp only [bodies, trimmedLines]
  rw [← this]
  rfl

theorem Build_head (input : List Char) (pre post : List (List Char)) (c : List Char)
    (hin : lines input ++ [lastChunk input] = pre ++ c :: post)
    (hpre : ∀ l ∈ pre, classify (TrimSpace l) ≠ .Content)
    (hc : classify (TrimSpace c) = .Content) :
    ∃ first rest, Build input = some (first :: rest) ∧ first.title = [] ∧
      AddPart [] (TrimSpace c) <+: first.body := by
  have hskip : ∀ (ls : List (List Char)) (st : State), st.content = [] →
      (∀ l ∈ ls, classify (TrimSpace l) ≠ .Content) → ls.foldl step st = st := by
    intro ls
    induction ls with
    | nil => intros; rfl
    | cons l ls ih =>
      intro st h0 hall
      simp only [List.foldl_cons]
      have hl := hall l (List.mem_cons_self _ _)
      have hrest : ∀ x ∈ ls, classify (TrimSpace x) ≠ .Content :=
        fun x hx => hall x (List.mem_cons_of_mem _ hx)
      cases h : classify (TrimSpace l) with
      | Blank => rw [step_blank st l h]; exact ih st h0 hrest
      | Title => rw [step_title_empty st l h h0]; exact ih st h0 hrest
      | Content => exact absurd h hl
  have hne : TrimSpace c ≠ [] := ((classify_content_iff _).mp hc).1
  rw [Build_eq]
  rcases List.eq_nil_or_concat post with hp | ⟨post', x, hp⟩
  · subst hp
    have h1 : lines input = pre ∧ [lastChunk input] = [c] :=
      List.append_inj' hin rfl
    have h2 : lastChunk input = c := by simpa using h1.2
    rw [h1.1, h2, hskip pre State.init rfl hpre, atEOF_sections]
    refine ⟨_, [], rfl, rfl, ?_⟩
    simp [hne, State.init]
  · subst hp
    have hin2 : lines input ++ [lastChunk input] = (pre ++ c :: post') ++ [x] := by
      rw [hin]; simp
    have h1 : lines input = pre ++ c :: post' ∧ [lastChunk input] = [x] :=
      List.append_inj' hin2 rfl
    rw [h1.1, List.foldl_append, hskip pre State.init rfl hpre, List.foldl_cons,
      step_content _ _ hc]
    obtain ⟨body, site, rest, heq, hpfx⟩ := head_fold post' (lastChunk input)
      { State.init with content := AddPart State.init.content (TrimSpace c) }
    refine ⟨⟨body, [], site⟩, rest, ?_, rfl, ?_⟩
    · rw [heq]; rfl
    · simpa [State.init] using hpfx

theorem Build_later_titles (input : List Char) :
    ∃ secs, Build input = some secs ∧
      (∀ s ∈ secs.head?, s.site = .seal → s.title = []) ∧
      ∀ s ∈ secs.tail, s.title ≠ [] ∧ classify s.title = .Title := by
  have ht := Build_titles input
  rw [Build_eq] at ht ⊢
  simp only [Option.map_some', Option.some.injEq] at ht
  refine ⟨_, rfl, ?_⟩
  cases hL : (atEOF ((lines input).foldl step State.init) (lastChunk input)).sections with
  | nil => rw [hL] at ht; simp at ht
  | cons first rest =>
    rw [hL] at ht
    simp only [List.map_cons, List.cons.injEq] at ht
    refine ⟨?_, ?_⟩
    · intro s hs _
      simp only [List.head?_cons, Option.mem_def, Option.some.injEq] at hs
      rw [← hs]
      exact ht.1
    · intro s hs
      simp only [List.tail_cons] at hs
      have hmem : s.title ∈ titlesAfterContent (lines input) := by
        rw [← ht.2]
        exact List.mem_map_of_mem _ hs
      have hc := titlesAfterContent_title _ _ hmem
      exact ⟨((classify_title_iff _).mp hc).1, hc⟩

/-! ## The claims -/

/-- C1, refuted on `text` / `Chapter 2` / `more`: the first section, sealed
by the Title line `Chapter 2`, is emitted with the empty title.  On
`Just some prose.` / `More prose.`, which has no Title line, the one section
is emitted by the `io.EOF` branch with the empty title as well. -/
theorem C1_counterexample :
    Build "text\nChapter 2\nmore\n".toList =
      some [⟨"<p class=\"content\">text</p>".toList, [], .seal⟩,
        ⟨"<h3 class=\"title\">Chapter 2</h3><p class=\"content\">more</p>".toList,
          "Chapter 2".toList, .eof⟩] ∧
    (Build "text\nChapter 2\nmore\n".toList).map
        (fun secs => secs.all (fun s => s.title != [])) = some false ∧
    Build "Just some prose.\nMore prose.".toList =
      some [⟨"<p class=\"content\">Just some prose.</p><p class=\"content\">More prose.</p>".toList,
        [], .eof⟩] := by
  decide

/-- C1 as amended: every section `Build` emits after the first carries a
non-empty title, the trimmed text of a Title-classified line, and a first
section that a Title line seals carries the empty title. -/
theorem C1_later_sections_titled (input : List Char) :
    ∃ secs, Build input = some secs ∧
      (∀ s ∈ secs.head?, s.site = .seal → s.title = []) ∧
      ∀ s ∈ secs.tail, s.title ≠ [] ∧ classify s.title = .Title :=
  Build_later_titles input

/-- C2, refuted on `Chapter 1` / `Text here.` and on the five-line example:
the leading Title line seeds nothing.  The first input yields one section
with the empty title and the body `<p class="content">Text here.</p>`, so no
first section titled `Chapter 1` whose body begins with its heading; the
second yields two sections, the first with the empty title and the body
`<p class="content">It was a dark night.</p>`. -/
theorem C2_counterexample :
    classify "Chapter 1".toList = .Title ∧
    classify "Text here.".toList = .Content ∧
    Build "Chapter 1\nText here.".toList =
      some [⟨"<p class=\"content\">Text here.</p>".toList, [], .eof⟩] ∧
    (¬ ∃ first rest, Build "Chapter 1\nText here.".toList = some (first :: rest) ∧
      first.title = "Chapter 1".toList ∧ heading "Chapter 1".toList <+: first.body) ∧
    Build ("Chapter 1 Beginning\nIt was a dark night.\n\nChapter 2 Middle\n" ++
        "The story continues.").toList =
      some [⟨"<p class=\"content\">It was a dark night.</p>".toList, [], .seal⟩,
        ⟨heading "Chapter 2 Middle".toList ++
            "<p class=\"content\">The story continues.</p>".toList,
          "Chapter 2 Middle".toList, .eof⟩] := by
  have hb : Build "Chapter 1\nText here.".toList =
      some [⟨"<p class=\"content\">Text here.</p>".toList, [], .eof⟩] := by decide
  refine ⟨by decide, by decide, hb, ?_, by decide⟩
  rintro ⟨first, rest, h, ht, _⟩
  rw [hb] at h
  simp only [Option.some.injEq, List.cons.injEq] at h
  rw [← h.1] at ht
  exact absurd ht (by decide)

/-- C2 as amended: when the lines before the first Content line `c` are
blank or Title lines, one of them a Title line `t`, the first section
`Build` emits has the empty title and a body that begins with the fragment
of `c` as `AddPart` renders it; `t` seeds neither title nor heading. -/
theorem C2_leading_title_seeds_nothing (input : List Char)
    (pre post : List (List Char)) (t c : List Char)
    (hin : lines input ++ [lastChunk input] = pre ++ c :: post)
    (hpre : ∀ l ∈ pre, classify (TrimSpace l) ≠ .Content)
    (_ht : t ∈ pre) (_htitle : classify (TrimSpace t) = .Title)
    (hc : classify (TrimSpace c) = .Content) :
    ∃ first rest, Build input = some (first :: rest) ∧ first.title = [] ∧
      AddPart [] (TrimSpace c) <+: first.body :=
  Build_head input pre post c hin hpre hc

/-- C2 as amended, at `Chapter 1` / `Text here.`. -/
theorem C2_leading_title_seeds_nothing_witness :
    ∃ first rest, Build "Chapter 1\nText here.".toList = some (first :: rest) ∧
      first.title = [] ∧ AddPart [] (TrimSpace "Text here.".toList) <+: first.body :=
  C2_leading_title_seeds_nothing "Chapter 1\nText here.".toList
    ["Chapter 1\n".toList] [] "Chapter 1\n".toList "Text here.".toList
    (by decide) (by decide) (by decide) (by decide) (by decide)

/-- C3, the code on `text` / `Chapter 2` with the last line unterminated:
`Chapter 2` is Title-classified and met with a non-empty buffer, so the
claim renders it as a heading, while the `io.EOF` branch of `Build` appends
it as a paragraph; with the line feed added the bodies are those the claim
gives. -/
theorem C3_unterminated_title_as_paragraph :
    classify "Chapter 2".toList = .Title ∧
    (Build "text\nChapter 2".toList).map bodies =
      some "<p class=\"content\">text</p><p class=\"content\">Chapter 2</p>".toList ∧
    (fragments true (trimmedLines "text\nChapter 2".toList)).flatten =
      "<p class=\"content\">text</p><h3 class=\"title\">Chapter 2</h3>".toList ∧
    (Build "text\nChapter 2".toList).map bodies ≠
      some (fragments true (trimmedLines "text\nChapter 2".toList)).flatten ∧
    (Build "text\nChapter 2\n".toList).map bodies =
      some (fragments true (trimmedLines "text\nChapter 2\n".toList)).flatten := by
  decide

/-- C4: a line whose trimmed text has more than 35 code points fails the
title test whatever the pattern says; in the loop body it leaves title and
sections alone and is appended to the buffer by `AddPart`, and as the final
unterminated line it is appended as well.  Every title `Build` emits has at
most 35 code points. -/
theorem C4_long_line_is_content :
    (∀ (st : State) (line : List Char),
      defaultMax < RuneCountInString (TrimSpace line) →
      isTitle (TrimSpace line) = false ∧
      step st line = { st with content := AddPart st.content (TrimSpace line) } ∧
      (atEOF st line).sections =
        st.sections ++ [⟨AddPart st.content (TrimSpace line), st.title, .eof⟩]) ∧
    (∀ input : List Char, ∃ secs, Build input = some secs ∧
      ∀ s ∈ secs, RuneCountInString s.title ≤ defaultMax) :=
  ⟨step_long, Build_titles_short⟩

/-- C4 at a 40-character line that starts with `Chapter 1` and matches the
pattern, met with a non-empty buffer; a title of 15 code points that takes
43 bytes passes the test, the count being in code points. -/
theorem C4_long_line_is_content_witness :
    "第一章 风雪夜归人与远方的来客".utf8ByteSize = 43 ∧
    isTitle "第一章 风雪夜归人与远方的来客".toList = true ∧
    RuneCountInString "Chapter 1 of a very long story continued".toList = 40 ∧
    MatchString defaultRegStr "Chapter 1 of a very long story continued".toList = true ∧
    step ⟨[], "x".toList, []⟩ "Chapter 1 of a very long story continued\n".toList =
      ⟨[], "x<p class=\"content\">Chapter 1 of a very long story continued</p>".toList, []⟩ :=
  ⟨by decide, by decide, by decide, by decide,
    (C4_long_line_is_content.1 ⟨[], "x".toList, []⟩
      "Chapter 1 of a very long story continued\n".toList (by decide)).2.1.trans (by decide)⟩

/-- C5, the code on the one line `Chapter 1` with no line feed: the line is
Title-classified and no Content line follows it, yet the `io.EOF` branch
appends it to the buffer as a paragraph, so that deleting it, which leaves
the empty input, changes the section `Build` emits.  With its line feed the
same line is dropped by the guard and the calls are those of the empty
input. -/
theorem C5_unterminated_leading_title_kept :
    classify (TrimSpace "Chapter 1".toList) = .Title ∧
    Build "Chapter 1".toList =
      some [⟨"<p class=\"content\">Chapter 1</p>".toList, [], .eof⟩] ∧
    Build [] = some [⟨[], [], .eof⟩] ∧
    Build "Chapter 1".toList ≠ Build [] ∧
    Build "Chapter 1\n".toList = Build [] := by
  decide

/-- C6: for every input the loop ends with an empty buffer, the statement
after the loop changes nothing, and the calls of `Build` are those of line
166, one for each Title line met after the first Content line, followed by
exactly one call of the `io.EOF` branch. -/
theorem C6_exactly_one_final_emission (input : List Char) :
    (∃ st, loop (input.length + 1) input State.init = some st ∧ st.content = [] ∧
      afterLoop st = st) ∧
    (∃ sealed final, Build input = some (sealed ++ [final]) ∧
      (∀ s ∈ sealed, s.site = .seal) ∧ final.site = .eof ∧
      sealed.length = (titlesAfterContent (lines input)).length) :=
  ⟨loop_exit input, Build_shape input⟩

/-- C7, the code on the empty input and on an input of blank and Title
lines only: the buffer is empty at the end of the stream and `Build` still
makes one `AddSection` call, with an empty body and an empty title. -/
theorem C7_empty_section_emitted :
    Build [] = some [⟨[], [], .eof⟩] ∧
    Build "\n  \nChapter 1\n".toList = some [⟨[], [], .eof⟩] := by
  decide

/-- C8, the code on `text` / `Chapter 2` without and with a final line
feed: the unterminated `Chapter 2` is appended as a paragraph, the
terminated one seals a section and becomes a title. -/
theorem C8_final_line_not_classified :
    classify (TrimSpace "Chapter 2".toList) = .Title ∧
    Build "text\nChapter 2".toList =
      some [⟨"<p class=\"content\">text</p><p class=\"content\">Chapter 2</p>".toList,
        [], .eof⟩] ∧
    Build "text\nChapter 2\n".toList =
      some [⟨"<p class=\"content\">text</p>".toList, [], .seal⟩,
        ⟨"<h3 class=\"title\">Chapter 2</h3>".toList, "Chapter 2".toList, .eof⟩] := by
  decide

/-- C10: for every input, the titles of the sections `Build` emits, in
order, are the empty string followed by the trimmed texts of the terminated
Title lines that come after the first Content line, in source order. -/
theorem C10_title_sequence (input : List Char) :
    (Build input).map (fun secs => secs.map (·.title)) =
      some ([] :: titlesAfterContent (lines input)) :=
  Build_titles input

/-! ## The decoded input: `readAndDecode` -/

theorem accept_isCont (b c : Nat) (h : accept b c = true) : isCont c = true := by
  unfold accept at h
  simp only [isCont, Bool.and_eq_true, decide_eq_true_eq] at h ⊢
  split_ifs at h <;> omega

theorem runeSize_start (b : Nat) (h : runeSize b ≠ 0) : RuneStart b = true := by
  unfold runeSize at h
  simp only [RuneStart, isCont, Bool.not_eq_true', Bool.and_eq_false_imp, decide_eq_true_eq,
    decide_eq_false_iff_not, not_le]
  split_ifs at h <;> omega

theorem runeSize_one (b : Nat) : runeSize b = 1 ↔ b < 0x80 := by
  unfold runeSize
  split_ifs <;> simp <;> omega

theorem Valid_cons_decomp (b0 : Nat) (rest : List Nat) (h : Valid (b0 :: rest) = true) :
    ∃ conts r, rest = conts ++ r ∧ (∀ c ∈ conts, isCont c = true) ∧ conts.length ≤ 3 ∧
      RuneStart b0 = true ∧ (b0 < 0x80 → conts = []) ∧ (¬ b0 < 0x80 → conts ≠ []) ∧
      Valid r = true ∧
      ∀ Z, Valid Z = true → Valid (b0 :: (conts ++ Z)) = true := by
  rw [Valid.eq_def] at h
  simp only at h
  split at h
  · rename_i rest0 _ _ hs
    refine ⟨[], rest0, rfl, by simp, by simp, runeSize_start b0 (by omega), fun _ => rfl,
      fun hn => absurd ((runeSize_one b0).mp hs) hn, h, ?_⟩
    intro Z hZ
    rw [Valid.eq_def]
    simp [hs, hZ]
  · rename_i c1 r hs
    simp only [Bool.and_eq_true] at h
    have hne : ¬ b0 < 0x80 := fun hl => by
      have := (runeSize_one b0).mpr hl
      omega
    refine ⟨[c1], r, rfl, ?_, by simp, runeSize_start b0 (by omega), fun hl => absurd hl hne,
      by simp, h.2, ?_⟩
    · intro c hc
      simp only [List.mem_singleton] at hc
      subst hc
      exact accept_isCont _ _ h.1
    · intro Z hZ
      rw [Valid.eq_def]
      simp [hs, hZ, h.1]
  · rename_i c1 c2 r hs
    simp only [Bool.and_eq_true] at h
    have hne : ¬ b0 < 0x80 := fun hl => by
      have := (runeSize_one b0).mpr hl
      omega
    refine ⟨[c1, c2], r, rfl, ?_, by simp, runeSize_start b0 (by omega),
      fun hl => absurd hl hne, by simp, h.2, ?_⟩
    · intro c hc
      simp only [List.mem_cons, List.mem_singleton, List.not_mem_nil, or_false] at hc
      rcases hc with rfl | rfl
      · exact accept_isCont _ _ h.1.1
      · exact h.1.2
    · intro Z hZ
      rw [Valid.eq_def]
      simp [hs, hZ, h.1.1, h.1.2]
  · rename_i c1 c2 c3 r hs
    simp only [Bool.and_eq_true] at h
    have hne : ¬ b0 < 0x80 := fun hl => by
      have := (runeSize_one b0).mpr hl
      omega
    refine ⟨[c1, c2, c3], r, rfl, ?_, by simp, runeSize_start b0 (by omega),
      fun hl => absurd hl hne, by simp, h.2, ?_⟩
    · intro c hc
      simp only [List.mem_cons, List.mem_singleton, List.not_mem_nil, or_false] at hc
      rcases hc with rfl | rfl | rfl
      · exact accept_isCont _ _ h.1.1.1
      · exact h.1.1.2
      · exact h.1.2
    · intro Z hZ
      rw [Valid.eq_def]
      simp [hs, hZ, h.1.1.1, h.1.1.2, h.1.2]
  · simp at h

theorem Valid_head (b0 : Nat) (rest : List Nat) (h : Valid (b0 :: rest) = true) :
    runeSize b0 ≠ 0 := by
  rw [Valid.eq_def] at h
  simp only at h
  split at h <;> first | omega | simp at h

theorem Valid_ascii_append (a r : List Nat) (ha : ∀ b ∈ a, b < 0x80) :
    Valid (a ++ r) = Valid r := by
  induction a with
  | nil => rfl
  | cons b a ih =>
    have hb : runeSize b = 1 := (runeSize_one b).mpr (ha b (List.mem_cons_self _ _))
    rw [List.cons_append, Valid.eq_def]
    simp only [hb]
    exact ih (fun x hx => ha x (List.mem_cons_of_mem _ hx))

/-! ### The scan for a partial rune -/

theorem cut_inside (k : Nat) (R Y : List Nat) (h : Nat) (hs : RuneStart h = true) :
    cutAtRuneStart k ((R ++ [h]) ++ Y) =
      (cutAtRuneStart k (R ++ [h])).map (fun r => r ++ Y) := by
  induction R generalizing k with
  | nil =>
    cases k with
    | zero => rfl
    | succ k =>
      simp only [List.nil_append, List.singleton_append, cutAtRuneStart, hs, if_true]
      split <;> simp
  | cons b R ih =>
    cases k with
    | zero => rfl
    | succ k =>
      simp only [List.cons_append, cutAtRuneStart]
      split
      · rfl
      · split
        · simp
        · exact ih k

theorem cut_conts (k : Nat) (C Y : List Nat) (h : Nat) (hC : ∀ c ∈ C, isCont c = true)
    (hk : C.length < k) (hh : ¬ h < 0x80) (hs : RuneStart h = true) :
    cutAtRuneStart k (C ++ h :: Y) = some Y := by
  induction C generalizing k with
  | nil =>
    cases k with
    | zero => simp at hk
    | succ k => simp [cutAtRuneStart, hh, hs]
  | cons c C ih =>
    cases k with
    | zero => simp at hk
    | succ k =>
      have hc := hC c (List.mem_cons_self _ _)
      have h1 : ¬ c < 0x80 := by
        simp only [isCont, Bool.and_eq_true, decide_eq_true_eq] at hc
        omega
      have h2 : RuneStart c = false := by simp [RuneStart, hc]
      simp only [List.cons_append, cutAtRuneStart, h1, h2, if_false]
      simp only [Bool.false_eq_true, if_false]
      exact ih k (fun x hx => hC x (List.mem_cons_of_mem _ hx))
        (by simp at hk; omega)

theorem cut_all_conts (k : Nat) (C Y : List Nat) (hC : ∀ c ∈ C, isCont c = true)
    (hk : k ≤ C.length) : cutAtRuneStart k (C ++ Y) = none := by
  induction C generalizing k with
  | nil =>
    have : k = 0 := by simpa using hk
    subst this
    rfl
  | cons c C ih =>
    cases k with
    | zero => rfl
    | succ k =>
      have hc := hC c (List.mem_cons_self _ _)
      have h1 : ¬ c < 0x80 := by
        simp only [isCont, Bool.and_eq_true, decide_eq_true_eq] at hc
        omega
      have h2 : RuneStart c = false := by simp [RuneStart, hc]
      simp only [List.cons_append, cutAtRuneStart, h1, h2, if_false]
      simp only [Bool.false_eq_true, if_false]
      exact ih k (fun x hx => hC x (List.mem_cons_of_mem _ hx))
        (by simp at hk; omega)

theorem cut_split (k : Nat) (R R1 : List Nat) (h : cutAtRuneStart k R = some R1) :
    ∃ P, R = P ++ R1 ∧ P.length ≤ k := by
  induction R generalizing k with
  | nil => cases k <;> simp [cutAtRuneStart] at h
  | cons b R ih =>
    cases k with
    | zero => simp [cutAtRuneStart] at h
    | succ k =>
      simp only [cutAtRuneStart] at h
      split at h
      · cases h
      · split at h
        · simp only [Option.some.injEq] at h
          subst h
          exact ⟨[b], rfl, by simp⟩
        · obtain ⟨P, hP, hl⟩ := ih k h
          exact ⟨b :: P, by simp [hP], by simp; omega⟩

theorem dropPartialRune_append (Y X : List Nat) (h : Nat) (hs : RuneStart h = true) :
    dropPartialRune (Y ++ h :: X) = Y ++ dropPartialRune (h :: X) := by
  unfold dropPartialRune
  have e1 : (Y ++ h :: X).reverse = (X.reverse ++ [h]) ++ Y.reverse := by simp
  have e2 : (h :: X).reverse = X.reverse ++ [h] := by simp
  rw [e1, e2, cut_inside _ _ _ _ hs]
  cases cutAtRuneStart 3 (X.reverse ++ [h]) with
  | none => simp
  | some r => simp

/-- A valid text cut after any number of bytes is valid again once the
partial rune at its end is dropped. -/
theorem Valid_dropPartialRune_take (m : Nat) :
    ∀ (file : List Nat), file.length ≤ m → ∀ n, Valid file = true →
      Valid (dropPartialRune (file.take n)) = true := by
  induction m with
  | zero =>
    intro file hl n _
    have : file = [] := List.length_eq_zero.mp (Nat.le_zero.mp hl)
    subst this
    simp [dropPartialRune, cutAtRuneStart, Valid]
  | succ m ih =>
    intro file hl n hv
    cases file with
    | nil => simp [dropPartialRune, cutAtRuneStart, Valid]
    | cons b0 rest =>
      obtain ⟨conts, r, hrest, hconts, hlen, hstart, hascii, hmulti, hr, hZ⟩ :=
        Valid_cons_decomp b0 rest hv
      subst hrest
      have hrl : r.length ≤ m := by
        simp only [List.length_cons, List.length_append] at hl
        omega
      by_cases hn : n ≤ conts.length
      · -- the cut falls inside the first rune
        cases n with
        | zero => simp [dropPartialRune, cutAtRuneStart, Valid]
        | succ n =>
          have hne : conts ≠ [] := by
            intro e
            rw [e] at hn
            simp at hn
          have hb : ¬ b0 < 0x80 := fun hlt => hne (hascii hlt)
          have htake : (b0 :: (conts ++ r)).take (n + 1) = b0 :: conts.take n := by
            rw [List.take_succ_cons, List.take_append_of_le_length (by omega)]
          rw [htake]
          unfold dropPartialRune
          have e : (b0 :: conts.take n).reverse = (conts.take n).reverse ++ b0 :: [] := by simp
          rw [e, cut_conts 3 _ [] b0 _ _ hb hstart]
          · simp [Valid]
          · intro c hc
            exact hconts c (List.mem_of_mem_take (List.mem_reverse.mp hc))
          · simp only [List.length_reverse, List.length_take]
            omega
      · -- the first rune is whole
        have hn2 : conts.length + 1 ≤ n := by omega
        obtain ⟨j, rfl⟩ : ∃ j, n = conts.length + 1 + j := ⟨n - (conts.length + 1), by omega⟩
        have htake : (b0 :: (conts ++ r)).take (conts.length + 1 + j) =
            (b0 :: conts) ++ r.take j := by
          have : conts.length + 1 + j = (b0 :: conts).length + j := by simp
          rw [this, ← List.cons_append, List.take_append]
        rw [htake]
        cases hX : r.take j with
        | nil =>
          rw [List.append_nil]
          have hwhole : Valid (b0 :: conts) = true := by
            have := hZ [] rfl
            simpa using this
          by_cases hb : b0 < 0x80
          · have : conts = [] := hascii hb
            subst this
            simpa [dropPartialRune, cutAtRuneStart, hb] using hwhole
          · by_cases h3 : conts.length < 3
            · unfold dropPartialRune
              have e : (b0 :: conts).reverse = conts.reverse ++ b0 :: [] := by simp
              rw [e, cut_conts 3 _ [] b0 _ _ hb hstart]
              · simp [Valid]
              · intro c hc
                exact hconts c (List.mem_reverse.mp hc)
              · simpa using h3
            · unfold dropPartialRune
              have e : (b0 :: conts).reverse = conts.reverse ++ [b0] := by simp
              rw [e, cut_all_conts 3 _ [b0]]
              · exact hwhole
              · intro c hc
                exact hconts c (List.mem_reverse.mp hc)
              · simp only [List.length_reverse]
                omega
        | cons h X =>
          have hr0 : ∃ r1, r = h :: r1 := by
            cases r with
            | nil => simp at hX
            | cons a r1 =>
              cases j with
              | zero => simp at hX
              | succ j =>
                simp only [List.take_succ_cons, List.cons.injEq] at hX
                exact ⟨r1, by rw [hX.1]⟩
          obtain ⟨r1, hr1⟩ := hr0
          have hsh : RuneStart h = true := by
            rw [hr1] at hr
            exact runeSize_start h (Valid_head h r1 hr)
          rw [dropPartialRune_append _ _ _ hsh, List.cons_append]
          apply hZ
          rw [← hX]
          exact ih r hrl j hr

/-- The bytes that come at least three places before the end of the content
survive `dropPartialRune`. -/
theorem mem_dropPartialRune (c : List Nat) (b : Nat) (hb : b ∈ c.take (c.length - 3)) :
    b ∈ dropPartialRune c := by
  unfold dropPartialRune
  cases hcut : cutAtRuneStart 3 c.reverse with
  | none => exact List.mem_of_mem_take hb
  | some R1 =>
    obtain ⟨P, hP, hl⟩ := cut_split 3 _ _ hcut
    have hc : c = R1.reverse ++ P.reverse := by
      have := congrArg List.reverse hP
      simpa using this
    simp only
    rw [hc, List.take_append_of_le_length (by simp; omega)] at hb
    exact List.mem_of_mem_take hb

theorem dropPartialRune_subset (c : List Nat) : ∀ b ∈ dropPartialRune c, b ∈ c := by
  intro b hb
  unfold dropPartialRune at hb
  cases hcut : cutAtRuneStart 3 c.reverse with
  | none => rw [hcut] at hb; exact hb
  | some R1 =>
    rw [hcut] at hb
    obtain ⟨P, hP, _⟩ := cut_split 3 _ _ hcut
    have : b ∈ c.reverse := by
      rw [hP]
      exact List.mem_append_right _ (List.mem_reverse.mp hb)
    exact List.mem_reverse.mp this

/-! ### The encoding found -/

theorem DetermineEncoding_ascii (lib : Library) (c : List Nat) (hc : ∀ b ∈ c, b < 0x80)
    (hscan : prescan lib (c.take 1024) = none) :
    DetermineEncoding lib c = "windows-1252" := by
  have hmem : ∀ b ∈ c.take 1024, b < 0x80 := fun b hb => hc b (List.mem_of_mem_take hb)
  have h1 : ¬ [0xFE, 0xFF] <+: c.take 1024 := by
    intro hp
    have := hmem 0xFE (hp.subset (by simp))
    omega
  have h2 : ¬ [0xFF, 0xFE] <+: c.take 1024 := by
    intro hp
    have := hmem 0xFF (hp.subset (by simp))
    omega
  have h3 : ¬ [0xEF, 0xBB, 0xBF] <+: c.take 1024 := by
    intro hp
    have := hmem 0xEF (hp.subset (by simp))
    omega
  have h4 : (dropPartialRune (c.take 1024)).any (fun b => decide (0x80 ≤ b)) = false := by
    rw [List.any_eq_false]
    intro b hb
    have := hmem b (dropPartialRune_subset _ b hb)
    simp only [decide_eq_true_eq]
    omega
  simp only [DetermineEncoding, h1, h2, h3, if_false, hscan, h4, Bool.false_and]
  rfl

theorem high_byte_kept (file : List Nat)
    (hhigh : ∃ b ∈ file.take (min file.length 1024 - 3), 0x80 ≤ b) :
    (dropPartialRune (file.take 1024)).any (fun c => decide (0x80 ≤ c)) = true := by
  obtain ⟨b, hb, hge⟩ := hhigh
  rw [List.any_eq_true]
  refine ⟨b, mem_dropPartialRune _ b ?_, by simpa using hge⟩
  rw [List.take_take, List.length_take]
  have : min (min 1024 file.length - 3) 1024 = min file.length 1024 - 3 := by omega
  rw [this]
  exact hb

theorem DetermineEncoding_utf8 (lib : Library) (file : List Nat) (hv : Valid file = true)
    (hhigh : [0xEF, 0xBB, 0xBF] <+: file ∨
      (dropPartialRune (file.take 1024)).any (fun c => decide (0x80 ≤ c)) = true)
    (hscan : prescan lib (file.take 1024) = none) :
    DetermineEncoding lib (file.take 1024) = "utf-8" := by
  have htt : (file.take 1024).take 1024 = file.take 1024 := by
    rw [List.take_take]
    simp
  have hhead : ∀ b rest, file.take 1024 = b :: rest → runeSize b ≠ 0 := by
    intro b rest hb
    cases file with
    | nil => simp at hb
    | cons a r =>
      simp only [List.take_succ_cons, List.cons.injEq] at hb
      rw [← hb.1]
      exact Valid_head a r hv
  have h1 : ¬ [0xFE, 0xFF] <+: file.take 1024 := by
    rintro ⟨t, ht⟩
    exact hhead 0xFE _ ht.symm (by decide)
  have h2 : ¬ [0xFF, 0xFE] <+: file.take 1024 := by
    rintro ⟨t, ht⟩
    exact hhead 0xFF _ ht.symm (by decide)
  by_cases hbom : [0xEF, 0xBB, 0xBF] <+: file.take 1024
  · simp only [DetermineEncoding, htt, h1, h2, if_false, hbom, if_true]
  · have h4 : (dropPartialRune (file.take 1024)).any (fun c => decide (0x80 ≤ c)) = true := by
      rcases hhigh with hb | h4
      · exfalso
        apply hbom
        obtain ⟨t, rfl⟩ := hb
        exact ⟨t.take 1021, rfl⟩
      · exact h4
    have h5 := Valid_dropPartialRune_take file.length file (Nat.le_refl _) 1024 hv
    simp only [DetermineEncoding, htt, h1, h2, hbom, if_false, hscan, h4, h5, Bool.and_self,
      if_true]

/-! ### The GB18030 decoder on ASCII -/

theorem EncodeRune_length_pos (r : Nat) : 0 < (EncodeRune r).length := by
  unfold EncodeRune
  split_ifs <;> simp

theorem gbkLoop_ascii_append (lib : Library) (a : List Nat) (ha : ∀ b ∈ a, b < 0x80)
    (fuel : Nat) (rest : List Nat) :
    gbkLoop lib (a.length + fuel) (a ++ rest) =
      (gbkLoop lib fuel rest).map (fun out => a ++ out) := by
  induction a with
  | nil => simp
  | cons b a ih =>
    have hb : b < 0x80 := ha b (List.mem_cons_self _ _)
    have hfuel : (b :: a).length + fuel = (a.length + fuel) + 1 := by
      simp only [List.length_cons]
      omega
    rw [hfuel, List.cons_append, gbkLoop]
    have hstep : gbkStep lib b (a ++ rest) = (b, 1) := by simp [gbkStep, hb]
    rw [hstep]
    simp only [Nat.sub_self, List.drop_zero]
    rw [ih (fun x hx => ha x (List.mem_cons_of_mem _ hx))]
    cases gbkLoop lib fuel rest <;> simp [EncodeRune, hb]

theorem gb18030Decode_ascii_append (lib : Library) (a rest : List Nat)
    (ha : ∀ b ∈ a, b < 0x80) :
    gb18030Decode lib (a ++ rest) = (gb18030Decode lib rest).map (fun out => a ++ out) := by
  unfold gb18030Decode
  rw [List.length_append, gbkLoop_ascii_append lib a ha]

theorem gb18030Decode_ascii (lib : Library) (a : List Nat) (ha : ∀ b ∈ a, b < 0x80) :
    gb18030Decode lib a = some a := by
  have := gb18030Decode_ascii_append lib a [] ha
  simpa [gb18030Decode, gbkLoop] using this

/-- The decoder always returns: every turn takes at least one byte. -/
theorem gbkLoop_isSome (lib : Library) (fuel : Nat) :
    ∀ src : List Nat, src.length ≤ fuel → (gbkLoop lib fuel src).isSome = true := by
  induction fuel with
  | zero =>
    intro src h
    have : src = [] := List.length_eq_zero.mp (Nat.le_zero.mp h)
    subst this
    rfl
  | succ n ih =>
    intro src h
    cases src with
    | nil => rfl
    | cons c0 rest =>
      rw [gbkLoop, Option.isSome_map']
      apply ih
      simp only [List.length_cons, List.length_drop] at h ⊢
      omega

/-- `readAndDecode` always returns a reader: the decoder never runs out of
fuel. -/
theorem readAndDecode_isSome (lib : Library) (file : List Nat) :
    (readAndDecode lib file).isSome = true := by
  unfold readAndDecode
  simp only
  split
  · split
    · exact gbkLoop_isSome lib _ _ (Nat.le_refl _)
    · rfl
  · rfl

theorem readAndDecode_ascii_sniff (lib : Library) (file : List Nat)
    (hc : ∀ b ∈ file.take 1024, b < 0x80)
    (hscan : prescan lib (file.take 1024) = none) :
    DetermineEncoding lib (file.take 1024) = "windows-1252" ∧
      readAndDecode lib file = gb18030Decode lib file := by
  have htt : (file.take 1024).take 1024 = file.take 1024 := by
    rw [List.take_take]
    simp
  have h := DetermineEncoding_ascii lib (file.take 1024) hc (by rw [htt]; exact hscan)
  refine ⟨h, ?_⟩
  unfold readAndDecode
  simp only [h]
  rfl

theorem readAndDecode_preserves (lib : Library) (file : List Nat)
    (hscan : prescan lib (file.take 1024) = none)
    (h : (∀ b ∈ file, b < 0x80) ∨
      (Valid file = true ∧
        ([0xEF, 0xBB, 0xBF] <+: file ∨
          (dropPartialRune (file.take 1024)).any (fun c => decide (0x80 ≤ c)) = true ∨
          ∃ b ∈ file.take (min file.length 1024 - 3), 0x80 ≤ b))) :
    readAndDecode lib file = some file := by
  rcases h with h | ⟨hv, hhigh⟩
  · rw [(readAndDecode_ascii_sniff lib file (fun b hb => h b (List.mem_of_mem_take hb))
      hscan).2]
    exact gb18030Decode_ascii lib file h
  · have hk : [0xEF, 0xBB, 0xBF] <+: file ∨
        (dropPartialRune (file.take 1024)).any (fun c => decide (0x80 ≤ c)) = true := by
      rcases hhigh with hb | hk | h3
      · exact Or.inl hb
      · exact Or.inr hk
      · exact Or.inr (high_byte_kept file h3)
    have := DetermineEncoding_utf8 lib file hv hk hscan
    unfold readAndDecode
    simp [this]

/-- A file of ASCII bytes only is valid UTF-8, is taken for `windows-1252`
and goes through the GB18030 decoder. -/
theorem readAndDecode_ascii_path (lib : Library) (file : List Nat)
    (hscan : prescan lib (file.take 1024) = none) (h : ∀ b ∈ file, b < 0x80) :
    Valid file = true ∧
      DetermineEncoding lib (file.take 1024) = "windows-1252" ∧
      readAndDecode lib file = gb18030Decode lib file := by
  refine ⟨?_, readAndDecode_ascii_sniff lib file
    (fun b hb => h b (List.mem_of_mem_take hb)) hscan⟩
  have := Valid_ascii_append file [] h
  rw [List.append_nil] at this
  rw [this]
  rfl

theorem EncodeRune_RuneError : EncodeRune RuneError = [0xEF, 0xBF, 0xBD] := by decide

theorem gbkStep_han (lib : Library) :
    gbkStep lib 0xE4 [0xB8, 0xAD] = (twoByteRune lib 0xE4 (0xB8 - 0x41), 2) := rfl

theorem gbkStep_lone (lib : Library) : gbkStep lib 0xAD [] = (RuneError, 1) := rfl

theorem gb18030Decode_han (lib : Library) :
    gb18030Decode lib [0xE4, 0xB8, 0xAD] =
      some (EncodeRune (twoByteRune lib 0xE4 (0xB8 - 0x41)) ++ [0xEF, 0xBF, 0xBD]) := by
  rw [← EncodeRune_RuneError]
  unfold gb18030Decode
  simp only [List.length_cons, List.length_nil, gbkLoop, gbkStep_han, gbkStep_lone, List.drop,
    Option.map_some', List.append_nil]

theorem ascii_then_han_garbled (lib : Library) (a : List Nat) (hasc : ∀ b ∈ a, b < 0x80)
    (hlen : a.length = 1024) (hno : 0x3C ∉ a) :
    DetermineEncoding lib ((a ++ [0xE4, 0xB8, 0xAD]).take 1024) = "windows-1252" ∧
      readAndDecode lib (a ++ [0xE4, 0xB8, 0xAD]) = gb18030Decode lib (a ++ [0xE4, 0xB8, 0xAD]) ∧
      readAndDecode lib (a ++ [0xE4, 0xB8, 0xAD]) ≠ some (a ++ [0xE4, 0xB8, 0xAD]) := by
  have htake : (a ++ [0xE4, 0xB8, 0xAD]).take 1024 = a := List.take_left' hlen
  have hscan : prescan lib ((a ++ [0xE4, 0xB8, 0xAD]).take 1024) = none := by
    rw [htake]
    unfold prescan
    rw [if_neg hno]
  obtain ⟨h1, h2⟩ := readAndDecode_ascii_sniff lib (a ++ [0xE4, 0xB8, 0xAD])
    (by rw [htake]; exact hasc) hscan
  refine ⟨h1, h2, ?_⟩
  rw [h2, gb18030Decode_ascii_append lib _ _ hasc]
  rw [gb18030Decode_han]
  simp only [Option.map_some', ne_eq, Option.some.injEq, List.append_cancel_left_eq]
  intro he
  have hl := congrArg List.length he
  have := EncodeRune_length_pos (twoByteRune lib 0xE4 (0xB8 - 0x41))
  simp only [List.length_append, List.length_cons, List.length_nil] at hl
  omega

theorem asciiThenHan_garbled (lib : Library) :
    DetermineEncoding lib (asciiThenHan.take 1024) = "windows-1252" ∧
      readAndDecode lib asciiThenHan = gb18030Decode lib asciiThenHan ∧
      readAndDecode lib asciiThenHan ≠ some asciiThenHan := by
  refine ascii_then_han_garbled lib (List.replicate 1024 0x61) ?_
    (List.length_replicate 1024 0x61) ?_
  · intro b hb
    rw [(List.mem_replicate.mp hb).2]
    decide
  · intro hm
    have := (List.mem_replicate.mp hm).2
    omega

theorem abcHan_garbled (lib : Library) :
    readAndDecode lib [0x61, 0x62, 0x63, 0xE4, 0xB8, 0xAD] ≠
      some [0x61, 0x62, 0x63, 0xE4, 0xB8, 0xAD] := by
  have h1 : readAndDecode lib [0x61, 0x62, 0x63, 0xE4, 0xB8, 0xAD] =
      gb18030Decode lib ([0x61, 0x62, 0x63] ++ [0xE4, 0xB8, 0xAD]) := by
    have hd : DetermineEncoding lib
        (List.take 1024 [0x61, 0x62, 0x63, 0xE4, 0xB8, 0xAD]) = "windows-1252" := rfl
    unfold readAndDecode
    simp only [hd]
    rfl
  rw [h1, gb18030Decode_ascii_append lib _ _ (by decide), gb18030Decode_han]
  simp only [Option.map_some', ne_eq, Option.some.injEq]
  intro he
  have hl := congrArg List.length he
  have := EncodeRune_length_pos (twoByteRune lib 0xE4 (0xB8 - 0x41))
  simp only [List.length_append, List.length_cons, List.length_nil] at hl
  omega

theorem asciiThenHan_valid : Valid asciiThenHan = true := by
  unfold asciiThenHan
  rw [Valid_ascii_append]
  · decide
  · intro b hb
    rw [(List.mem_replicate.mp hb).2]
    decide

/-- C9, refuted on a kibibyte of the letter `a` followed by U+4E2D: the file
is valid UTF-8, yet its first 1024 bytes are ASCII, so that the encoding
found is `windows-1252`, the file goes through the GB18030 decoder, and the
reader does not yield the bytes of the file.  The same happens to `abc`
followed by U+4E2D, whose only non-ASCII rune lies within the last three
bytes and is dropped before the test for UTF-8. -/
theorem C9_counterexample :
    Valid asciiThenHan = true ∧
    Valid [0x61, 0x62, 0x63, 0xE4, 0xB8, 0xAD] = true ∧
    ∀ lib : Library,
      DetermineEncoding lib (asciiThenHan.take 1024) = "windows-1252" ∧
      readAndDecode lib asciiThenHan = gb18030Decode lib asciiThenHan ∧
      readAndDecode lib asciiThenHan ≠ some asciiThenHan ∧
      readAndDecode lib [0x61, 0x62, 0x63, 0xE4, 0xB8, 0xAD] ≠
        some [0x61, 0x62, 0x63, 0xE4, 0xB8, 0xAD] :=
  ⟨asciiThenHan_valid, by decide, fun lib =>
    ⟨(asciiThenHan_garbled lib).1, (asciiThenHan_garbled lib).2.1,
      (asciiThenHan_garbled lib).2.2, abcHan_garbled lib⟩⟩

/-- C9 as amended: when the scan of the first 1024 bytes names no encoding,
the reader yields exactly the bytes of the file for every file of ASCII
bytes only and for every valid UTF-8 file that starts with the UTF-8 byte
order mark or keeps a non-ASCII byte among its first 1024 bytes once the
partial rune at their end is dropped, as it does when a non-ASCII byte lies
at least three places before their end.  A file of ASCII bytes only is valid
UTF-8, and yet the encoding found for it is `windows-1252` and its bytes go
through the GB18030 decoder. -/
theorem C9_utf8_bytes_preserved (lib : Library) (file : List Nat)
    (hscan : prescan lib (file.take 1024) = none)
    (h : (∀ b ∈ file, b < 0x80) ∨
      (Valid file = true ∧
        ([0xEF, 0xBB, 0xBF] <+: file ∨
          (dropPartialRune (file.take 1024)).any (fun c => decide (0x80 ≤ c)) = true ∨
          ∃ b ∈ file.take (min file.length 1024 - 3), 0x80 ≤ b))) :
    readAndDecode lib file = some file ∧
      ((∀ b ∈ file, b < 0x80) →
        Valid file = true ∧
        DetermineEncoding lib (file.take 1024) = "windows-1252" ∧
        readAndDecode lib file = gb18030Decode lib file) :=
  ⟨readAndDecode_preserves lib file hscan h, readAndDecode_ascii_path lib file hscan⟩

/-- C9 as amended, at U+4E2D followed by `abc` and at `abc` alone. -/
theorem C9_utf8_bytes_preserved_witness :
    readAndDecode Library.blank [0xE4, 0xB8, 0xAD, 0x61, 0x62, 0x63] =
      some [0xE4, 0xB8, 0xAD, 0x61, 0x62, 0x63] ∧
    readAndDecode Library.blank [0x61, 0x62, 0x63] = some [0x61, 0x62, 0x63] ∧
    DetermineEncoding Library.blank (List.take 1024 [0x61, 0x62, 0x63]) = "windows-1252" ∧
    readAndDecode Library.blank [0x61, 0x62, 0x63] =
      gb18030Decode Library.blank [0x61, 0x62, 0x63] :=
  ⟨(C9_utf8_bytes_preserved Library.blank [0xE4, 0xB8, 0xAD, 0x61, 0x62, 0x63] (by decide)
      (Or.inr ⟨by decide, Or.inr (Or.inr ⟨0xE4, by decide, by decide⟩)⟩)).1,
    (C9_utf8_bytes_preserved Library.blank [0x61, 0x62, 0x63] (by decide)
      (Or.inl (by decide))).1,
    ((C9_utf8_bytes_preserved Library.blank [0x61, 0x62, 0x63] (by decide)
      (Or.inl (by decide))).2 (by decide)).2⟩

end EpubBuilder
